import Mathlib

/-!
Verification development for the pixelArtEngine job scheduler and ffmpeg
conversion pipeline (`packages/ffmpeg/src/index.ts`, `packages/core/src`).

The embedding below translates the TypeScript source into Lean:

* `JobQueue` becomes an explicit state machine (`QueueState`, the operation
  functions `enqueueOp`, `setConcurrencyOp`, `cancelOp`, `cancelAllOp`,
  `settleOp`, and the `Step` / `Reached` relations).  Job payloads and worker
  results are opaque to the scheduler's bookkeeping and are elided; a job is
  represented by its string identifier.  The `running` map is modelled by its
  key list (`Map.set` = `List.insert`, `Map.delete` = `List.erase`), the
  `canceled` set likewise.  Worker settlement (`.then/.catch/.finally` of
  `JobQueue.run`) is an explicit `settleOp` step whose outcome
  (`Settlement.resolved` / `Settlement.rejected isAbort message`) is chosen by
  the environment.
* Concurrency limits are integral in the source's actual use (the constructor
  is called with integer literals and `setConcurrency` applies `Math.floor`),
  so the limit is embedded as `Nat` after the source's clamping.
-/

/-- Events emitted by the scheduler (`QueueEvent` union in the source).
`done` carries a result and `progress` a number in the source; results are
opaque to the scheduler so `done` keeps only the job id here. -/
inductive QueueEvent where
  | queued (jobId : String)
  | start (jobId : String)
  | progress (jobId : String) (value : ℚ)
  | done (jobId : String)
  | error (jobId : String) (message : String)
  | canceled (jobId : String)
  | idle
deriving DecidableEq, Repr

/-- Scheduler bookkeeping: the pending FIFO list, the key set of the
`running` map, the `canceled` id set, and the concurrency limit. -/
structure QueueState where
  pending : List String
  running : List String
  canceled : List String
  concurrency : Nat
deriving DecidableEq, Repr

/-- Constructor: `this.concurrency = Math.max(1, concurrency)`. -/
def initQueue (c : ℤ) : QueueState :=
  { pending := [], running := [], canceled := [], concurrency := (max 1 c).toNat }

/-- `emitIdleIfNeeded`: emit `idle` exactly when pending and running are both
empty at this instant. -/
def emitIdleIfNeeded (s : QueueState) : List QueueEvent :=
  if s.pending = [] ∧ s.running = [] then [QueueEvent.idle] else []

/-- The admission loop of `drain`: while the running map is smaller than the
concurrency limit and jobs are pending, shift the head of the pending list,
put it in the running map (`run` inserts before emitting `start`) and emit
`start`.  Returns (new running keys, remaining pending, events). -/
def drainGo (conc : Nat) : List String → List String → List String × List String × List QueueEvent
  | running, [] => (running, [], [])
  | running, id :: rest =>
    if running.length < conc then
      let d := drainGo conc (running.insert id) rest
      (d.1, d.2.1, QueueEvent.start id :: d.2.2)
    else (running, id :: rest, [])

/-- `JobQueue.drain`: run the admission loop, then `emitIdleIfNeeded`. -/
def drain (s : QueueState) : QueueState × List QueueEvent :=
  let d := drainGo s.concurrency s.running s.pending
  let s' := { s with running := d.1, pending := d.2.1 }
  (s', d.2.2 ++ emitIdleIfNeeded s')

/-- `JobQueue.enqueue`: push every item, emitting `queued` per item in order,
then drain. -/
def enqueueOp (s : QueueState) (items : List String) : QueueState × List QueueEvent :=
  let d := drain { s with pending := s.pending ++ items }
  (d.1, items.map QueueEvent.queued ++ d.2)

/-- `JobQueue.setConcurrency`: `this.concurrency = Math.max(1, Math.floor(next))`,
then drain. -/
def setConcurrencyOp (s : QueueState) (next : ℚ) : QueueState × List QueueEvent :=
  drain { s with concurrency := (max 1 ⌊next⌋).toNat }

/-- `JobQueue.cancel`: a pending id is spliced out, marked canceled, `canceled`
is emitted and idle is re-checked; a running id is marked canceled and its
controller aborted (no bookkeeping change, no event); otherwise no-op. -/
def cancelOp (s : QueueState) (jobId : String) : QueueState × List QueueEvent :=
  if jobId ∈ s.pending then
    let s' := { s with pending := s.pending.erase jobId, canceled := s.canceled.insert jobId }
    (s', QueueEvent.canceled jobId :: emitIdleIfNeeded s')
  else if jobId ∈ s.running then
    ({ s with canceled := s.canceled.insert jobId }, [])
  else (s, [])

/-- `JobQueue.cancelAll`: mark and emit `canceled` for every pending job in
order, clear pending, mark every running job canceled (aborting controllers),
then re-check idle. -/
def cancelAllOp (s : QueueState) : QueueState × List QueueEvent :=
  let c1 := s.pending.foldl (fun acc id => acc.insert id) s.canceled
  let c2 := s.running.foldl (fun acc id => acc.insert id) c1
  let s' := { s with pending := [], canceled := c2 }
  (s', s.pending.map QueueEvent.canceled ++ emitIdleIfNeeded s')

/-- Outcome of a worker invocation: the promise resolved, or rejected with an
error whose `name === "AbortError"` status and message are recorded. -/
inductive Settlement where
  | resolved
  | rejected (isAbort : Bool) (message : String)
deriving DecidableEq, Repr

/-- Settlement handling of `JobQueue.run` (`.then/.catch/.finally`): on
resolution, emit `done` unless the id is marked canceled (then emit nothing);
on rejection, emit `canceled` if the id is marked canceled or the error is an
abort error, else `error(message)`; finally delete the id from the running map
and the canceled set and drain. -/
def settleOp (s : QueueState) (jobId : String) (out : Settlement) : QueueState × List QueueEvent :=
  let evs : List QueueEvent :=
    match out with
    | Settlement.resolved =>
        if jobId ∈ s.canceled then [] else [QueueEvent.done jobId]
    | Settlement.rejected isAbort msg =>
        if jobId ∈ s.canceled ∨ isAbort = true then [QueueEvent.canceled jobId]
        else [QueueEvent.error jobId msg]
  let d := drain { s with running := s.running.erase jobId, canceled := s.canceled.erase jobId }
  (d.1, evs ++ d.2)

/-- One externally observable step of the scheduler: a public API call, or the
settlement of a running worker invocation. -/
inductive Step : QueueState → List QueueEvent → QueueState → Prop
  | enqueue (s : QueueState) (items : List String) :
      Step s (enqueueOp s items).2 (enqueueOp s items).1
  | setConc (s : QueueState) (next : ℚ) :
      Step s (setConcurrencyOp s next).2 (setConcurrencyOp s next).1
  | cancel (s : QueueState) (jobId : String) :
      Step s (cancelOp s jobId).2 (cancelOp s jobId).1
  | cancelAll (s : QueueState) :
      Step s (cancelAllOp s).2 (cancelAllOp s).1
  | settle (s : QueueState) (jobId : String) (out : Settlement) (h : jobId ∈ s.running) :
      Step s (settleOp s jobId out).2 (settleOp s jobId out).1

/-- States (with their cumulative event trace) reachable from a freshly
constructed queue by any interleaving of API calls and settlements. -/
inductive Reached : QueueState → List QueueEvent → Prop
  | init (c : ℤ) : Reached (initQueue c) []
  | step {s : QueueState} {tr evs : List QueueEvent} {s' : QueueState} :
      Reached s tr → Step s evs s' → Reached s' (tr ++ evs)

@[simp] lemma drain_fst_pending (s : QueueState) :
    (drain s).1.pending = (drainGo s.concurrency s.running s.pending).2.1 := rfl

@[simp] lemma drain_fst_running (s : QueueState) :
    (drain s).1.running = (drainGo s.concurrency s.running s.pending).1 := rfl

@[simp] lemma drain_fst_canceled (s : QueueState) :
    (drain s).1.canceled = s.canceled := rfl

@[simp] lemma drain_fst_concurrency (s : QueueState) :
    (drain s).1.concurrency = s.concurrency := rfl

lemma drain_snd (s : QueueState) :
    (drain s).2 =
      (drainGo s.concurrency s.running s.pending).2.2 ++ emitIdleIfNeeded (drain s).1 := rfl

lemma length_insert_le (a : String) (l : List String) : (l.insert a).length ≤ l.length + 1 := by
  by_cases h : a ∈ l
  · simp [List.insert_of_mem h]
  · simp [List.insert_of_not_mem h]

/-- The admission loop never grows the running map beyond the larger of its
initial size and the concurrency limit. -/
lemma drainGo_length (conc : Nat) (pending : List String) :
    ∀ running : List String, ((drainGo conc running pending).1).length ≤ max running.length conc := by
  induction pending with
  | nil => intro running; simp [drainGo]
  | cons id rest ih =>
    intro running
    by_cases h : running.length < conc
    · simp only [drainGo, if_pos h]
      have h1 := ih (running.insert id)
      have h2 := length_insert_le id running
      omega
    · simp [drainGo, h]

/-- The admission loop only ever adds jobs to the running map. -/
lemma drainGo_subset (conc : Nat) (pending : List String) :
    ∀ running : List String, running ⊆ (drainGo conc running pending).1 := by
  induction pending with
  | nil => intro r; simp [drainGo]
  | cons id rest ih =>
    intro r
    by_cases h : r.length < conc
    · simp only [drainGo, if_pos h]
      exact (List.subset_insert id r).trans (ih _)
    · simp [drainGo, h]

lemma cancelOp_fst_running (s : QueueState) (jobId : String) :
    ((cancelOp s jobId).1).running = s.running := by
  by_cases h1 : jobId ∈ s.pending
  · simp [cancelOp, h1]
  · by_cases h2 : jobId ∈ s.running <;> simp [cancelOp, h1, h2]

lemma cancelOp_fst_concurrency (s : QueueState) (jobId : String) :
    ((cancelOp s jobId).1).concurrency = s.concurrency := by
  by_cases h1 : jobId ∈ s.pending
  · simp [cancelOp, h1]
  · by_cases h2 : jobId ∈ s.running <;> simp [cancelOp, h1, h2]

/-- Claim C1 (amended): the limit is always clamped to at least 1; every step
keeps the running count at or below the larger of its previous value and the
(possibly just-updated) limit; any step whose resulting limit is at or above
the previous running count leaves the running count within the limit (so with
a fixed limit the bound holds at every point, and the bound can only be
exceeded transiently, by lowering the limit below the current running count);
and `setConcurrency` never preempts: every running job stays running. -/
theorem queue_concurrency_bound :
    (∀ (s : QueueState) (tr : List QueueEvent), Reached s tr → 1 ≤ s.concurrency) ∧
    (∀ (s : QueueState) (evs : List QueueEvent) (s' : QueueState), Step s evs s' →
      s'.running.length ≤ max s.running.length s'.concurrency) ∧
    (∀ (s : QueueState) (evs : List QueueEvent) (s' : QueueState), Step s evs s' →
      s.running.length ≤ s'.concurrency → s'.running.length ≤ s'.concurrency) ∧
    (∀ (s : QueueState) (next : ℚ), s.running ⊆ ((setConcurrencyOp s next).1).running) := by
  refine ⟨?_, ?_, ?_, ?_⟩
  · intro s tr h
    induction h with
    | init c => simp only [initQueue]; omega
    | step hr hst ih =>
      cases hst with
      | enqueue items => simpa [enqueueOp] using ih
      | setConc next => simp only [setConcurrencyOp, drain_fst_concurrency]; omega
      | cancel jobId => rw [cancelOp_fst_concurrency]; exact ih
      | cancelAll => simpa [cancelAllOp] using ih
      | settle jobId out h => simpa [settleOp] using ih
  · intro s evs s' hst
    cases hst with
    | enqueue items =>
      simpa [enqueueOp] using drainGo_length s.concurrency (s.pending ++ items) s.running
    | setConc next =>
      simpa [setConcurrencyOp] using
        drainGo_length ((max 1 ⌊next⌋).toNat) s.pending s.running
    | cancel jobId => rw [cancelOp_fst_running]; exact le_max_left _ _
    | cancelAll => simp [cancelAllOp]
    | settle jobId out h =>
      have h1 := drainGo_length s.concurrency s.pending (s.running.erase jobId)
      have h2 : (s.running.erase jobId).length ≤ s.running.length :=
        (List.erase_sublist jobId s.running).length_le
      simp only [settleOp, drain_fst_running, drain_fst_concurrency]
      omega
  · intro s evs s' hst hle
    cases hst with
    | enqueue items =>
      have h1 := drainGo_length s.concurrency (s.pending ++ items) s.running
      simp only [enqueueOp, drain_fst_running, drain_fst_concurrency] at *
      omega
    | setConc next =>
      have h1 := drainGo_length ((max 1 ⌊next⌋).toNat) s.pending s.running
      simp only [setConcurrencyOp, drain_fst_running, drain_fst_concurrency] at *
      omega
    | cancel jobId =>
      rw [cancelOp_fst_running, cancelOp_fst_concurrency]
      rwa [cancelOp_fst_concurrency] at hle
    | cancelAll => simpa [cancelAllOp] using hle
    | settle jobId out h =>
      have h1 := drainGo_length s.concurrency s.pending (s.running.erase jobId)
      have h2 : (s.running.erase jobId).length ≤ s.running.length :=
        (List.erase_sublist jobId s.running).length_le
      simp only [settleOp, drain_fst_running, drain_fst_concurrency] at *
      omega
  · intro s next
    simpa [setConcurrencyOp] using
      drainGo_subset ((max 1 ⌊next⌋).toNat) s.pending s.running

/-- Witness for `queue_concurrency_bound` at concrete inputs. -/
theorem queue_concurrency_bound_witness :
    1 ≤ (initQueue 2).concurrency ∧
    ((enqueueOp (initQueue 2) ["a"]).1).running.length ≤
      max (initQueue 2).running.length ((enqueueOp (initQueue 2) ["a"]).1).concurrency ∧
    ((enqueueOp (initQueue 2) ["a"]).1).running.length ≤
      ((enqueueOp (initQueue 2) ["a"]).1).concurrency ∧
    (initQueue 2).running ⊆ ((setConcurrencyOp (initQueue 2) 5).1).running :=
  ⟨queue_concurrency_bound.1 _ _ (Reached.init 2),
   queue_concurrency_bound.2.1 _ _ _ (Step.enqueue (initQueue 2) ["a"]),
   queue_concurrency_bound.2.2.1 _ _ _ (Step.enqueue (initQueue 2) ["a"]) (by decide),
   queue_concurrency_bound.2.2.2 (initQueue 2) 5⟩

/-- Claim C1 as stated is false: enqueue two jobs at limit 2, then lower the
limit to 1 — both jobs keep running (no preemption), so the running map now
exceeds the current limit. -/
theorem queue_concurrency_bound_cex :
    ¬ (∀ (s : QueueState) (tr : List QueueEvent), Reached s tr →
        s.running.length ≤ s.concurrency) := by
  intro h
  have r1 : Reached (enqueueOp (initQueue 2) ["a", "b"]).1
      ([] ++ (enqueueOp (initQueue 2) ["a", "b"]).2) :=
    (Reached.init 2).step (Step.enqueue _ _)
  have r2 := r1.step (Step.setConc _ 1)
  exact absurd (h _ _ r2) (by decide)

/-- Every event emitted inside the admission loop is a `start` event. -/
lemma drainGo_events (conc : Nat) (pending : List String) :
    ∀ (running : List String) (e : QueueEvent), e ∈ (drainGo conc running pending).2.2 →
      ∃ id, e = QueueEvent.start id := by
  induction pending with
  | nil => intro r e h; simp [drainGo] at h
  | cons id rest ih =>
    intro r e h
    by_cases hc : r.length < conc
    · simp only [drainGo, if_pos hc, List.mem_cons] at h
      rcases h with h | h
      · exact ⟨id, h⟩
      · exact ih _ e h
    · simp [drainGo, hc] at h

lemma idle_notin_drainGo (conc : Nat) (pending running : List String) :
    QueueEvent.idle ∉ (drainGo conc running pending).2.2 := by
  intro h
  rcases drainGo_events conc pending running _ h with ⟨id, hid⟩
  exact QueueEvent.noConfusion hid

lemma idle_in_emitIdle {t : QueueState} (h : QueueEvent.idle ∈ emitIdleIfNeeded t) :
    t.pending = [] ∧ t.running = [] ∧ emitIdleIfNeeded t = [QueueEvent.idle] := by
  unfold emitIdleIfNeeded at *
  by_cases hc : t.pending = [] ∧ t.running = []
  · simp [hc]
  · simp [hc] at h

/-- If `drain` emitted `idle`, then at that instant (which is also the end of
the drain) pending and running are both empty, and `idle` closes the batch. -/
lemma idle_in_drain (s : QueueState) (h : QueueEvent.idle ∈ (drain s).2) :
    (drain s).1.pending = [] ∧ (drain s).1.running = [] ∧
      (drain s).2.getLast? = some QueueEvent.idle := by
  rw [drain_snd] at h
  rcases List.mem_append.mp h with h1 | h2
  · exact absurd h1 (idle_notin_drainGo _ _ _)
  · obtain ⟨hp, hr, heq⟩ := idle_in_emitIdle h2
    refine ⟨hp, hr, ?_⟩
    have hsplit : (drain s).2 =
        (drainGo s.concurrency s.running s.pending).2.2 ++ [QueueEvent.idle] := by
      rw [drain_snd, heq]
    rw [hsplit, List.getLast?_append_of_ne_nil _ (by simp)]
    rfl

/-- Claim C3: `idle` is emitted only at an instant where the pending list and
the running map are simultaneously empty; the instant of emission is the end
of the step that produced it (so within a drain cycle `idle` follows the last
settling event), and the post-state of that step is empty. -/
theorem idle_event_iff_empty :
    ∀ (s : QueueState) (evs : List QueueEvent) (s' : QueueState),
      Step s evs s' → QueueEvent.idle ∈ evs →
      s'.pending = [] ∧ s'.running = [] ∧ evs.getLast? = some QueueEvent.idle := by
  intro s evs s' hst hmem
  cases hst with
  | enqueue items =>
    simp only [enqueueOp] at hmem ⊢
    rcases List.mem_append.mp hmem with h1 | h2
    · exfalso
      rcases List.mem_map.mp h1 with ⟨x, _, hx⟩
      exact QueueEvent.noConfusion hx
    · obtain ⟨hp, hr, hlast⟩ := idle_in_drain _ h2
      exact ⟨hp, hr, by rw [List.getLast?_append_of_ne_nil _ (List.ne_nil_of_mem h2)]; exact hlast⟩
  | setConc next =>
    simp only [setConcurrencyOp] at hmem ⊢
    exact idle_in_drain _ hmem
  | cancel jobId =>
    by_cases h1 : jobId ∈ s.pending
    · simp only [cancelOp, if_pos h1] at hmem ⊢
      rcases List.mem_cons.mp hmem with h | h
      · exact absurd h (by simp)
      · obtain ⟨hp, hr, heq⟩ := idle_in_emitIdle h
        refine ⟨hp, hr, ?_⟩
        rw [heq]
        rfl
    · by_cases h2 : jobId ∈ s.running
      · simp only [cancelOp, if_neg h1, if_pos h2] at hmem
        simp at hmem
      · simp only [cancelOp, if_neg h1, if_neg h2] at hmem
        simp at hmem
  | cancelAll =>
    simp only [cancelAllOp] at hmem ⊢
    rcases List.mem_append.mp hmem with h1 | h2
    · exfalso
      rcases List.mem_map.mp h1 with ⟨x, _, hx⟩
      exact QueueEvent.noConfusion hx
    · obtain ⟨hp, hr, heq⟩ := idle_in_emitIdle h2
      refine ⟨trivial, hr, ?_⟩
      rw [heq, List.getLast?_append_of_ne_nil _ (by simp)]
      rfl
  | settle jobId out h =>
    simp only [settleOp] at hmem ⊢
    rcases List.mem_append.mp hmem with h1 | h2
    · exfalso
      cases out with
      | resolved =>
        by_cases hc : jobId ∈ s.canceled <;> simp [hc] at h1
      | rejected isAbort msg =>
        by_cases hc : jobId ∈ s.canceled ∨ isAbort = true <;> simp [hc] at h1
    · obtain ⟨hp, hr, hlast⟩ := idle_in_drain _ h2
      exact ⟨hp, hr, by rw [List.getLast?_append_of_ne_nil _ (List.ne_nil_of_mem h2)]; exact hlast⟩

/-- Witness for `idle_event_iff_empty`: `cancelAll` on a fresh queue emits
`idle`, and the resulting state is empty. -/
theorem idle_event_iff_empty_witness :
    ((cancelAllOp (initQueue 1)).1).pending = [] ∧
      ((cancelAllOp (initQueue 1)).1).running = [] ∧
      ((cancelAllOp (initQueue 1)).2).getLast? = some QueueEvent.idle :=
  idle_event_iff_empty _ _ _ (Step.cancelAll (initQueue 1)) (by decide)

/-- Claim C9: whenever pending and running are both already empty, `enqueue`
with an empty batch, `setConcurrency` with any value, and `cancelAll` each
emit a further `idle` event (and nothing else): `idle` re-fires at every such
checkpoint, not only on a transition from non-empty to empty. -/
theorem idle_refires_on_empty_checkpoints :
    ∀ s : QueueState, s.pending = [] → s.running = [] →
      (enqueueOp s []).2 = [QueueEvent.idle] ∧
      (∀ next : ℚ, (setConcurrencyOp s next).2 = [QueueEvent.idle]) ∧
      (cancelAllOp s).2 = [QueueEvent.idle] := by
  intro s hp hr
  refine ⟨?_, ?_, ?_⟩
  · simp [enqueueOp, drain, drainGo, emitIdleIfNeeded, hp, hr]
  · intro next
    simp [setConcurrencyOp, drain, drainGo, emitIdleIfNeeded, hp, hr]
  · simp [cancelAllOp, emitIdleIfNeeded, hp, hr]

/-- Witness for `idle_refires_on_empty_checkpoints` on a fresh queue. -/
theorem idle_refires_on_empty_checkpoints_witness :
    (enqueueOp (initQueue 1) []).2 = [QueueEvent.idle] ∧
    (setConcurrencyOp (initQueue 1) 3).2 = [QueueEvent.idle] ∧
    (cancelAllOp (initQueue 1)).2 = [QueueEvent.idle] :=
  ⟨(idle_refires_on_empty_checkpoints _ rfl rfl).1,
   (idle_refires_on_empty_checkpoints _ rfl rfl).2.1 3,
   (idle_refires_on_empty_checkpoints _ rfl rfl).2.2⟩

/-- Recognizer for the terminal (settling) events of a given job id. -/
def terminalFor (id : String) : QueueEvent → Bool
  | QueueEvent.done j => j == id
  | QueueEvent.error j _ => j == id
  | QueueEvent.canceled j => j == id
  | _ => false

/-- A drain emits only `start` and `idle` events, hence no terminal events. -/
lemma drain_no_terminal (s : QueueState) (id : String) :
    (drain s).2.filter (terminalFor id) = [] := by
  rw [drain_snd, List.filter_append]
  have h1 : (drainGo s.concurrency s.running s.pending).2.2.filter (terminalFor id) = [] := by
    rw [List.filter_eq_nil_iff]
    intro e he
    rcases drainGo_events _ _ _ _ he with ⟨j, rfl⟩
    simp [terminalFor]
  have h2 : (emitIdleIfNeeded (drain s).1).filter (terminalFor id) = [] := by
    unfold emitIdleIfNeeded
    split <;> simp [terminalFor]
  rw [h1, h2]
  rfl

lemma settleOp_snd (s : QueueState) (jobId : String) (out : Settlement) :
    (settleOp s jobId out).2 =
      (match out with
        | Settlement.resolved => if jobId ∈ s.canceled then [] else [QueueEvent.done jobId]
        | Settlement.rejected isAbort msg =>
            if jobId ∈ s.canceled ∨ isAbort = true then [QueueEvent.canceled jobId]
            else [QueueEvent.error jobId msg]) ++
      (drain { s with running := s.running.erase jobId, canceled := s.canceled.erase jobId }).2 :=
  rfl

/-- Claim C2 (amended): a settlement never lets the worker outcome escape and
emits at most one terminal event — zero exactly when the worker resolved while
its id was marked canceled (the result is then suppressed with no event at
all); otherwise exactly one: `canceled` on a rejection whose id was marked
canceled or whose error is an abort error, `done` on a clean resolution, and
`error(message)` on any other rejection. -/
theorem settle_event_classification :
    ∀ (s : QueueState) (jobId : String) (out : Settlement),
      ((settleOp s jobId out).2.filter (terminalFor jobId)).length ≤ 1 ∧
      (out = Settlement.resolved → jobId ∈ s.canceled →
        (settleOp s jobId out).2.filter (terminalFor jobId) = []) ∧
      (out = Settlement.resolved → jobId ∉ s.canceled →
        (settleOp s jobId out).2.filter (terminalFor jobId) = [QueueEvent.done jobId]) ∧
      (∀ (isAbort : Bool) (msg : String), out = Settlement.rejected isAbort msg →
        (jobId ∈ s.canceled ∨ isAbort = true) →
        (settleOp s jobId out).2.filter (terminalFor jobId) = [QueueEvent.canceled jobId]) ∧
      (∀ (isAbort : Bool) (msg : String), out = Settlement.rejected isAbort msg →
        ¬(jobId ∈ s.canceled ∨ isAbort = true) →
        (settleOp s jobId out).2.filter (terminalFor jobId) = [QueueEvent.error jobId msg]) := by
  intro s jobId out
  cases out with
  | resolved =>
    by_cases hc : jobId ∈ s.canceled
    · have key : (settleOp s jobId Settlement.resolved).2.filter (terminalFor jobId) = [] := by
        rw [settleOp_snd, List.filter_append, drain_no_terminal, List.append_nil]
        simp [hc]
      exact ⟨by simp [key], fun _ _ => key, fun _ hn => absurd hc hn,
        fun a m he _ => Settlement.noConfusion he, fun a m he _ => Settlement.noConfusion he⟩
    · have key : (settleOp s jobId Settlement.resolved).2.filter (terminalFor jobId) =
          [QueueEvent.done jobId] := by
        rw [settleOp_snd, List.filter_append, drain_no_terminal, List.append_nil]
        simp [hc, terminalFor]
      exact ⟨by simp [key], fun _ hn => absurd hn hc, fun _ _ => key,
        fun a m he _ => Settlement.noConfusion he, fun a m he _ => Settlement.noConfusion he⟩
  | rejected isAbort msg =>
    by_cases hc : jobId ∈ s.canceled ∨ isAbort = true
    · have key : (settleOp s jobId (Settlement.rejected isAbort msg)).2.filter
          (terminalFor jobId) = [QueueEvent.canceled jobId] := by
        rw [settleOp_snd, List.filter_append, drain_no_terminal, List.append_nil]
        simp only [if_pos hc]
        simp [terminalFor]
      refine ⟨by simp [key], fun he => Settlement.noConfusion he,
        fun he => Settlement.noConfusion he, ?_, ?_⟩
      · intro a m he hcc
        cases he
        exact key
      · intro a m he hcc
        cases he
        exact absurd hc hcc
    · have key : (settleOp s jobId (Settlement.rejected isAbort msg)).2.filter
          (terminalFor jobId) = [QueueEvent.error jobId msg] := by
        rw [settleOp_snd, List.filter_append, drain_no_terminal, List.append_nil]
        simp only [if_neg hc]
        simp [terminalFor]
      refine ⟨by simp [key], fun he => Settlement.noConfusion he,
        fun he => Settlement.noConfusion he, ?_, ?_⟩
      · intro a m he hcc
        cases he
        exact absurd hcc hc
      · intro a m he hcc
        cases he
        exact key

/-- Witness for `settle_event_classification` at concrete settlements. -/
theorem settle_event_classification_witness :
    ((settleOp (initQueue 1) "a" Settlement.resolved).2.filter (terminalFor "a")).length ≤ 1 ∧
    (settleOp (initQueue 1) "a" Settlement.resolved).2.filter (terminalFor "a") =
      [QueueEvent.done "a"] ∧
    (settleOp (initQueue 1) "a" (Settlement.rejected true "boom")).2.filter (terminalFor "a") =
      [QueueEvent.canceled "a"] :=
  ⟨(settle_event_classification (initQueue 1) "a" Settlement.resolved).1,
   (settle_event_classification (initQueue 1) "a" Settlement.resolved).2.2.1 rfl (by decide),
   (settle_event_classification (initQueue 1) "a" (Settlement.rejected true "boom")).2.2.2.1
      true "boom" rfl (by decide)⟩

/-- Claim C2 as stated is false: a running job that was marked canceled and
whose worker then resolves produces zero terminal events — the settlement is
swallowed silently rather than emitting `canceled`. -/
theorem settle_single_event_cex :
    ¬ (∀ (s : QueueState) (jobId : String) (out : Settlement), jobId ∈ s.running →
        ((settleOp s jobId out).2.filter (terminalFor jobId)).length = 1) := by
  intro h
  exact absurd
    (h (cancelOp (enqueueOp (initQueue 1) ["a"]).1 "a").1 "a" Settlement.resolved (by decide))
    (by decide)

/-- Claim C6: the code retains a pending-canceled identifier in the canceled
set forever.  Concretely: at limit 1, enqueue `a` then `b`, cancel the still
pending `b` (its terminal `canceled` event fires), then settle `a` — the queue
is fully drained (pending and running empty) yet `b` is still in the canceled
set; if `b` is then enqueued again, its successful settlement emits no
terminal event at all. -/
theorem canceled_set_retained_after_terminal :
    ((settleOp (cancelOp (enqueueOp (initQueue 1) ["a", "b"]).1 "b").1 "a"
        Settlement.resolved).1).pending = [] ∧
    ((settleOp (cancelOp (enqueueOp (initQueue 1) ["a", "b"]).1 "b").1 "a"
        Settlement.resolved).1).running = [] ∧
    "b" ∈ ((settleOp (cancelOp (enqueueOp (initQueue 1) ["a", "b"]).1 "b").1 "a"
        Settlement.resolved).1).canceled ∧
    (cancelOp (enqueueOp (initQueue 1) ["a", "b"]).1 "b").2.filter (terminalFor "b") =
      [QueueEvent.canceled "b"] ∧
    ((settleOp (enqueueOp (settleOp (cancelOp (enqueueOp (initQueue 1) ["a", "b"]).1 "b").1
        "a" Settlement.resolved).1 ["b"]).1 "b" Settlement.resolved).2.filter
      (terminalFor "b")) = [] := by
  decide

/-- Parse a non-empty all-digit character run (the `(\d+)` capture group with
`Number.parseInt`); any other run is rejected. -/
def digitsToNat (cs : List Char) : Option Nat :=
  if cs ≠ [] ∧ cs.all Char.isDigit then
    some (cs.foldl (fun n c => n * 10 + (c.toNat - 48)) 0)
  else none

/-- `parseOutTimeMs`: recognize a whole line of the form
`out_time_ms=<digits>` and parse the integer (`/^out_time_ms=(\d+)$/`).
Strings are handled through their character lists so that the definition is
kernel-executable. -/
def parseOutTimeMs (line : String) : Option Nat :=
  if line.data.take 12 = "out_time_ms=".data then digitsToNat (line.data.drop 12) else none

/-- Per-line progress mapping of the video branch of
`convertAssetWithFfmpeg`: ignore non-progress lines and unknown durations,
otherwise clamp `outTimeMs / (durationSeconds * 1_000_000)` into [0, 0.99]. -/
def progressFromLine (durationSeconds : ℚ) (line : String) : Option ℚ :=
  match parseOutTimeMs line with
  | none => none
  | some outTimeMs =>
    if durationSeconds ≤ 0 then none
    else some (max 0 (min (99/100) ((outTimeMs : ℚ) / (durationSeconds * 1000000))))

/-- The mid-invocation progress values delivered to `onProgress` during the
video encode, in stderr line order. -/
def videoMidProgress (durationSeconds : ℚ) (lines : List String) : List ℚ :=
  lines.filterMap (progressFromLine durationSeconds)

/-- All progress values delivered on the video success path: the
mid-invocation values followed by the final `onProgress(1)`. -/
def videoProgressReports (durationSeconds : ℚ) (lines : List String) : List ℚ :=
  videoMidProgress durationSeconds lines ++ [1]

/-- Progress values delivered on the image success path:
`onProgress(0.1)` before the encode, `onProgress(1)` after. -/
def imageProgressReports : List ℚ := [1/10, 1]

lemma videoMidProgress_of_nonpos {d : ℚ} (hd : d ≤ 0) (lines : List String) :
    videoMidProgress d lines = [] := by
  rw [videoMidProgress, List.filterMap_eq_nil_iff]
  intro line _
  unfold progressFromLine
  cases parseOutTimeMs line <;> simp [hd]

lemma videoMidProgress_of_pos {d : ℚ} (hd : ¬ d ≤ 0) (lines : List String) :
    videoMidProgress d lines = (lines.filterMap parseOutTimeMs).map
      (fun t : ℕ => max 0 (min (99/100) ((t : ℚ) / (d * 1000000)))) := by
  induction lines with
  | nil => rfl
  | cons line rest ih =>
    rw [videoMidProgress, List.filterMap_cons, List.filterMap_cons]
    cases h : parseOutTimeMs line with
    | none => simpa [progressFromLine, h] using ih
    | some t =>
      simp only [progressFromLine, h, if_neg hd, List.map_cons]
      rw [← videoMidProgress, ih]

/-- Claim C4: on the video success path, every mid-invocation progress value
derived from an `out_time_ms` line is clamped into [0, 0.99]; the final value
reported is exactly 1; and, the tool-reported output timestamps of a run being
non-decreasing, the whole delivered progress sequence is non-decreasing.  The
image success path reports 0.1 then 1, also non-decreasing and ending at 1. -/
theorem convert_progress_reports :
    ∀ (durationSeconds : ℚ) (lines : List String),
      (∀ p ∈ videoMidProgress durationSeconds lines, 0 ≤ p ∧ p ≤ 99/100) ∧
      (videoProgressReports durationSeconds lines).getLast? = some 1 ∧
      (List.Chain' (fun a b => a ≤ b) (lines.filterMap parseOutTimeMs) →
        List.Chain' (fun a b => a ≤ b) (videoProgressReports durationSeconds lines)) ∧
      List.Chain' (fun a b => a ≤ b) imageProgressReports ∧
      imageProgressReports.getLast? = some 1 := by
  intro d lines
  have hbound : ∀ p ∈ videoMidProgress d lines, 0 ≤ p ∧ p ≤ 99/100 := by
    intro p hp
    rcases List.mem_filterMap.mp hp with ⟨line, _, hline⟩
    unfold progressFromLine at hline
    rcases hparse : parseOutTimeMs line with _ | t <;> rw [hparse] at hline
    · exact absurd hline (by simp)
    · by_cases hd : d ≤ 0
      · simp [hd] at hline
      · simp only [if_neg hd, Option.some.injEq] at hline
        rcases hline with rfl
        refine ⟨le_max_left _ _, max_le (by norm_num) (min_le_left _ _)⟩
  refine ⟨hbound, ?_, ?_, ?_, ?_⟩
  · rw [videoProgressReports, List.getLast?_append_of_ne_nil _ (by simp)]
    rfl
  · intro hchain
    rw [videoProgressReports, List.chain'_append]
    refine ⟨?_, List.chain'_singleton 1, ?_⟩
    · by_cases hd : d ≤ 0
      · rw [videoMidProgress_of_nonpos hd]
        exact List.chain'_nil
      · rw [videoMidProgress_of_pos hd]
        rw [List.chain'_map]
        refine hchain.imp ?_
        intro a b hab
        have hpos : (0 : ℚ) < d * 1000000 := by
          have : (0 : ℚ) < d := lt_of_not_le hd
          positivity
        have hdiv : (a : ℚ) / (d * 1000000) ≤ (b : ℚ) / (d * 1000000) :=
          (div_le_div_iff_of_pos_right hpos).mpr (by exact_mod_cast hab)
        exact max_le_max le_rfl (min_le_min le_rfl hdiv)
    · intro x hx y hy
      obtain rfl : (1 : ℚ) = y := by simpa using hy
      rcases List.mem_getLast?_eq_getLast hx with ⟨hne, rfl⟩
      have hmem := List.getLast_mem hne
      have := (hbound _ hmem).2
      linarith
  · rw [imageProgressReports]
    refine List.chain'_cons.mpr ⟨by norm_num, List.chain'_singleton 1⟩
  · rfl

/-- Witness for `convert_progress_reports` on a concrete run. -/
theorem convert_progress_reports_witness :
    List.Chain' (fun a b => a ≤ b) (videoProgressReports 2 ["out_time_ms=5"]) ∧
    (videoProgressReports 2 ["out_time_ms=5"]).getLast? = some 1 :=
  ⟨(convert_progress_reports 2 ["out_time_ms=5"]).2.2.1
      (by rw [show List.filterMap parseOutTimeMs ["out_time_ms=5"] = [5] by decide]
          exact List.chain'_singleton 5),
   (convert_progress_reports 2 ["out_time_ms=5"]).2.1⟩

/-- `clamp(value, min, max)` from the source, on the integral values produced
by `Math.floor`. -/
def clampZ (value lo hi : ℤ) : ℤ := max lo (min hi value)

/-- JavaScript `x || dflt` on numbers: `0` is falsy (`NaN` is not
representable in ℚ and does not occur in the embedded inputs). -/
def jsOr (x dflt : ℚ) : ℚ := if x = 0 then dflt else x

/-- JavaScript `x || dflt` where `x` is an optional number (`undefined` and
`0` both fall back to the default). -/
def jsOrOpt (x : Option ℚ) (dflt : ℚ) : ℚ :=
  match x with
  | none => dflt
  | some v => jsOr v dflt

/-- The numeric fields of `PixelConfig` consumed by the filter-graph builder
and the video post-processing steps (JS numbers embedded as ℚ; `fps` is an
optional field).  `outputFormat`, `alphaMask`, `spritesheet` and `outline` do
not feed the filter graph and are passed separately where needed. -/
structure PixelConfigQ where
  grid : ℚ
  palette : ℚ
  dither : String
  trim : Bool
  alphaThreshold : ℚ
  scale : ℚ
  fps : Option ℚ

def clampedGrid (c : PixelConfigQ) : ℤ := clampZ ⌊jsOr c.grid 32⌋ 1 512

def clampedScale (c : PixelConfigQ) : ℤ := clampZ ⌊jsOr c.scale 1⌋ 1 16

def clampedAlphaThreshold (c : PixelConfigQ) : ℤ := clampZ ⌊jsOr c.alphaThreshold 0⌋ 0 255

def clampedFps (c : PixelConfigQ) : ℤ := clampZ ⌊jsOrOpt c.fps 24⌋ 1 120

def clampedPalette (c : PixelConfigQ) : ℤ := clampZ ⌊jsOr c.palette 256⌋ 2 256

/-- `ditherMode`: translate the configured dither name to the tool's dither
algorithm argument (unknown names fall through to "none"). -/
def ditherMode (dither : String) : String :=
  if dither = "floyd" then "floyd_steinberg"
  else if dither = "bayer" then "bayer:bayer_scale=2"
  else "none"

/-- One stage of the constructed filter graph, as a structured value carrying
the numeric knob it embeds (the source serializes these to the tool's string
syntax; the stage order below matches the source's `parts` array). -/
inductive FilterStage where
  | downscale (grid : ℤ)
  | upscale (factor : ℤ)
  | alphaBinarize (threshold : ℤ)
  | cropEven
  | fpsForce (rate : ℤ)
  | padEven
deriving DecidableEq, Repr

/-- `createBaseFilter`: downscale by the grid, optional nearest-neighbor
upscale, optional alpha binarization, even-dimension crop for trim or video,
and video-only frame-rate forcing plus even padding. -/
def createBaseFilter (c : PixelConfigQ) (isVideo : Bool) : List FilterStage :=
  [FilterStage.downscale (clampedGrid c)] ++
  (if clampedScale c > 1 then [FilterStage.upscale (clampedScale c)] else []) ++
  (if clampedAlphaThreshold c > 0 then
    [FilterStage.alphaBinarize (clampedAlphaThreshold c)] else []) ++
  (if c.trim || isVideo then [FilterStage.cropEven] else []) ++
  (if isVideo then [FilterStage.fpsForce (clampedFps c), FilterStage.padEven] else [])

/-- The produced graph: a plain `-vf` chain at the maximum palette, otherwise
a `-filter_complex` with `palettegen max_colors` and `paletteuse` dither. -/
inductive FilterSpec where
  | vf (chain : List FilterStage)
  | filterComplex (chain : List FilterStage) (maxColors : ℤ) (dither : String)
deriving Repr

/-- `buildFilterSpec`: total function from configuration and asset kind to a
filter graph. -/
def buildFilterSpec (c : PixelConfigQ) (isVideo : Bool) : FilterSpec :=
  if clampedPalette c ≥ 256 then FilterSpec.vf (createBaseFilter c isVideo)
  else
    FilterSpec.filterComplex (createBaseFilter c isVideo) (clampedPalette c)
      (ditherMode c.dither)

/-- Sane ranges for the numeric knob of each stage, per the spec. -/
def stageKnobsOk : FilterStage → Prop
  | FilterStage.downscale g => 1 ≤ g ∧ g ≤ 512
  | FilterStage.upscale f => 1 ≤ f ∧ f ≤ 16
  | FilterStage.alphaBinarize t => 0 ≤ t ∧ t ≤ 255
  | FilterStage.fpsForce r => 1 ≤ r ∧ r ≤ 120
  | _ => True

/-- Sane ranges for every numeric knob embedded in a produced graph. -/
def specKnobsOk : FilterSpec → Prop
  | FilterSpec.vf chain => ∀ st ∈ chain, stageKnobsOk st
  | FilterSpec.filterComplex chain maxColors _ =>
      (∀ st ∈ chain, stageKnobsOk st) ∧ 2 ≤ maxColors ∧ maxColors ≤ 256

lemma mem_of_mem_ite (b : Prop) [Decidable b] (l : List FilterStage) (st : FilterStage)
    (h : st ∈ (if b then l else [])) : st ∈ l := by
  split at h
  · exact h
  · exact absurd h (List.not_mem_nil st)

/-- Claim C7: `buildFilterSpec` is a total function (it never fails: it is
defined for every configuration, clamping instead of rejecting), and every
numeric knob embedded in the produced graph lies in the sane ranges: grid
1..512, upscale factor 1..16, alpha threshold 0..255, palette size 2..256,
frame rate 1..120. -/
theorem buildFilterSpec_knobs_in_range :
    ∀ (c : PixelConfigQ) (isVideo : Bool), specKnobsOk (buildFilterSpec c isVideo) := by
  intro c isVideo
  have hbase : ∀ st ∈ createBaseFilter c isVideo, stageKnobsOk st := by
    intro st hst
    unfold createBaseFilter at hst
    simp only [List.mem_append] at hst
    rcases hst with ((((h | h) | h) | h) | h)
    · rcases List.mem_singleton.mp h with rfl
      unfold stageKnobsOk clampedGrid clampZ
      omega
    · rcases List.mem_singleton.mp (mem_of_mem_ite _ _ _ h) with rfl
      unfold stageKnobsOk clampedScale clampZ
      omega
    · rcases List.mem_singleton.mp (mem_of_mem_ite _ _ _ h) with rfl
      unfold stageKnobsOk clampedAlphaThreshold clampZ
      omega
    · rcases List.mem_singleton.mp (mem_of_mem_ite _ _ _ h) with rfl
      trivial
    · rcases List.mem_cons.mp (mem_of_mem_ite _ _ _ h) with rfl | h2
      · unfold stageKnobsOk clampedFps clampZ
        omega
      · rcases List.mem_singleton.mp h2 with rfl
        trivial
  unfold buildFilterSpec
  split
  · exact hbase
  · refine ⟨hbase, ?_, ?_⟩ <;> (unfold clampedPalette clampZ; omega)

/-- Output paths of the video post-processing steps
(`path.join(outputDir, name)` is embedded as slash concatenation). -/
def spritesheetPath (outputDir base : String) : String :=
  outputDir ++ "/" ++ (base ++ "_spritesheet.png")

def spritesheetMetaPath (outputDir base : String) : String :=
  outputDir ++ "/" ++ (base ++ "_spritesheet.json")

def alphaMaskPath (outputDir base ext : String) : String :=
  outputDir ++ "/" ++ (base ++ "_alpha." ++ ext)

/-- The `extras` list accumulated by the video branch of
`convertAssetWithFfmpeg`: the spritesheet image AND its metadata sidecar are
both pushed when `spritesheet` is set, then the alpha mask when `alphaMask`
is set. -/
def videoExtras (spritesheet alphaMask : Bool) (outputDir base ext : String) : List String :=
  (if spritesheet then
    [spritesheetPath outputDir base, spritesheetMetaPath outputDir base] else []) ++
  (if alphaMask then [alphaMaskPath outputDir base ext] else [])

/-- `extras.length > 0 ? extras : undefined` of the returned result. -/
def resultExtras (extras : List String) : Option (List String) :=
  if extras.length > 0 then some extras else none

/-- The metadata sidecar record (its wall-clock `generatedAt` field is
elided). -/
structure SpritesheetMeta where
  source : String
  tile : String
  fps : ℤ

/-- The record written to the `_spritesheet.json` sidecar. -/
def spritesheetMeta (primaryPath : String) (cfgFps : Option ℚ) : SpritesheetMeta :=
  { source := primaryPath, tile := "8x8", fps := clampZ ⌊jsOrOpt cfgFps 24⌋ 1 120 }

/-- Claim C5 (amended): a successful video conversion with `spritesheet:true`
(and `alphaMask:false`) returns exactly two extra artifacts — the spritesheet
image path followed by its metadata sidecar path: the sidecar is written
alongside and IS counted in the result's extras.  The sidecar record carries
the fixed 8x8 tile layout and a frame rate clamped into 1..120. -/
theorem spritesheet_extras :
    ∀ (outputDir base ext primaryPath : String) (cfgFps : Option ℚ),
      videoExtras true false outputDir base ext =
        [spritesheetPath outputDir base, spritesheetMetaPath outputDir base] ∧
      resultExtras (videoExtras true false outputDir base ext) =
        some [spritesheetPath outputDir base, spritesheetMetaPath outputDir base] ∧
      (spritesheetMeta primaryPath cfgFps).tile = "8x8" ∧
      1 ≤ (spritesheetMeta primaryPath cfgFps).fps ∧
      (spritesheetMeta primaryPath cfgFps).fps ≤ 120 := by
  intro outputDir base ext primaryPath cfgFps
  refine ⟨rfl, by simp [resultExtras, videoExtras], rfl, ?_, ?_⟩ <;>
    (unfold spritesheetMeta clampZ; simp only; omega)

/-- Claim C5 as stated is false: with `spritesheet:true` the result carries
two extra artifacts, not one — the metadata sidecar is pushed into `extras`
too. -/
theorem spritesheet_extras_cex :
    ¬ (∀ outputDir base ext : String,
        (videoExtras true false outputDir base ext).length = 1) := by
  intro h
  exact absurd (h "out" "clip" "mp4") (by decide)

/-- `rememberStderr` from `runFfmpeg`: ignore whitespace-only lines, append
the trimmed line to the tail, and shift the oldest entry out when the tail
exceeds 10 entries. -/
def rememberStderr (tail : List String) (line : String) : List String :=
  if line.trim = "" then tail
  else
    let t := tail ++ [line.trim]
    if t.length > 10 then t.drop 1 else t

/-- The diagnostic tail accumulated over a whole stderr line stream. -/
def stderrTail (lines : List String) : List String :=
  lines.foldl rememberStderr []

/-- The non-empty trimmed lines of the stream, in order. -/
def nonEmptyTrimmed (lines : List String) : List String :=
  (lines.map String.trim).filter (fun l => l ≠ "")

/-- `signal ? \`signal ${signal}\` : \`code ${code}\`` of the exit handler. -/
def exitReason (code : Option ℤ) (signal : Option String) : String :=
  match signal with
  | some sg => "signal " ++ sg
  | none =>
    match code with
    | some c => "code " ++ toString c
    | none => "code null"

/-- The exit handler of `runFfmpeg`: an abort observed on the signal rejects
with the abort error; exit code 0 resolves; any other exit code or abnormal
(signal) termination rejects with a message carrying the retained diagnostic
tail. -/
def exitOutcome (aborted : Bool) (code : Option ℤ) (signal : Option String)
    (tail : List String) : Except String Unit :=
  if aborted = true then Except.error "Conversion canceled"
  else if code = some 0 then Except.ok ()
  else
    Except.error ("ffmpeg exited with " ++ exitReason code signal ++
      (if tail ≠ [] then " | " ++ String.intercalate " | " tail else ""))

lemma stderrTail_append_singleton (ls : List String) (x : String) :
    stderrTail (ls ++ [x]) = rememberStderr (stderrTail ls) x := by
  simp [stderrTail, List.foldl_append]

/-- The accumulated tail is exactly the last (at most) ten non-empty trimmed
lines of the stream. -/
lemma stderrTail_eq (lines : List String) :
    stderrTail lines =
      (nonEmptyTrimmed lines).drop ((nonEmptyTrimmed lines).length - 10) := by
  induction lines using List.reverseRecOn with
  | nil => rfl
  | append_singleton ls x ih =>
    rw [stderrTail_append_singleton, ih]
    by_cases hx : x.trim = ""
    · have h1 : nonEmptyTrimmed (ls ++ [x]) = nonEmptyTrimmed ls := by
        simp [nonEmptyTrimmed, hx]
      rw [h1]
      simp [rememberStderr, hx]
    · have h1 : nonEmptyTrimmed (ls ++ [x]) = nonEmptyTrimmed ls ++ [x.trim] := by
        simp [nonEmptyTrimmed, hx]
      rw [h1]
      set m := nonEmptyTrimmed ls with hm
      set n := m.length with hn
      have hlen : (m.drop (n - 10)).length = n - (n - 10) := by
        rw [List.length_drop]
      by_cases hbig : 10 ≤ n
      · have hcond : (m.drop (n - 10) ++ [x.trim]).length > 10 := by
          rw [List.length_append]
          simp only [List.length_singleton]
          omega
        have hstep : rememberStderr (m.drop (n - 10)) x =
            (m.drop (n - 10) ++ [x.trim]).drop 1 := by
          simp only [rememberStderr, if_neg hx]
          rw [if_pos hcond]
        rw [hstep]
        have h2 : (m.drop (n - 10) ++ [x.trim]).drop 1 =
            (m.drop (n - 10)).drop 1 ++ [x.trim] := by
          refine List.drop_append_of_le_length ?_
          omega
        have h3 : (m ++ [x.trim]).drop ((m ++ [x.trim]).length - 10) =
            m.drop ((m ++ [x.trim]).length - 10) ++ [x.trim] := by
          refine List.drop_append_of_le_length ?_
          rw [List.length_append]
          simp only [List.length_singleton]
          omega
        have hidx : n - 10 + 1 = (m ++ [x.trim]).length - 10 := by
          rw [List.length_append]
          simp only [List.length_singleton]
          omega
        rw [h2, h3, List.drop_drop, hidx]
      · have h0 : n - 10 = 0 := by omega
        have hcond : ¬ (m ++ [x.trim]).length > 10 := by
          rw [List.length_append]
          simp only [List.length_singleton]
          omega
        have hstep : rememberStderr (m.drop (n - 10)) x = m ++ [x.trim] := by
          rw [h0, List.drop_zero]
          simp only [rememberStderr, if_neg hx]
          rw [if_neg hcond]
        rw [hstep]
        have h2 : (m ++ [x.trim]).length - 10 = 0 := by
          rw [List.length_append]
          simp only [List.length_singleton]
          omega
        rw [h2, List.drop_zero]

lemma stderrTail_length_le (lines : List String) : (stderrTail lines).length ≤ 10 := by
  rw [stderrTail_eq, List.length_drop]
  omega

/-- Claim C8: with no abort requested, the exit handler resolves exactly when
the subprocess exits with code 0; any other exit code or abnormal (signal)
termination rejects, with the failure message built from a diagnostic tail
that is exactly the last at-most-10 non-empty (trimmed) stderr lines. -/
theorem runFfmpeg_exit_contract :
    ∀ (code : Option ℤ) (signal : Option String) (lines : List String),
      ((exitOutcome false code signal (stderrTail lines)) = Except.ok () ↔ code = some 0) ∧
      (code ≠ some 0 → exitOutcome false code signal (stderrTail lines) =
        Except.error ("ffmpeg exited with " ++ exitReason code signal ++
          (if stderrTail lines ≠ [] then
            " | " ++ String.intercalate " | " (stderrTail lines) else ""))) ∧
      (stderrTail lines).length ≤ 10 ∧
      stderrTail lines =
        (nonEmptyTrimmed lines).drop ((nonEmptyTrimmed lines).length - 10) := by
  intro code signal lines
  refine ⟨?_, ?_, stderrTail_length_le lines, stderrTail_eq lines⟩
  · by_cases hc : code = some 0
    · simp [exitOutcome, hc]
    · simp [exitOutcome, hc]
  · intro hc
    simp [exitOutcome, hc]

/-- Witness for `runFfmpeg_exit_contract`: a non-zero exit code rejects with
the retained tail. -/
theorem runFfmpeg_exit_contract_witness :
    exitOutcome false (some 1) none (stderrTail ["x"]) =
      Except.error ("ffmpeg exited with " ++ exitReason (some 1) none ++
        (if stderrTail ["x"] ≠ [] then
          " | " ++ String.intercalate " | " (stderrTail ["x"]) else "")) ∧
    (stderrTail ["x"]).length ≤ 10 :=
  ⟨(runFfmpeg_exit_contract (some 1) none ["x"]).2.1 (by decide),
   (runFfmpeg_exit_contract (some 1) none ["x"]).2.2.1⟩

/-- `path.extname` (Node): the suffix of the final path segment starting at
its last dot, or the empty string when the segment has no dot or its only dot
is the leading character; trailing-slash stripping of `basename` is elided
since the scanner only applies this to file paths. -/
def extname (p : String) : String :=
  let base := ((p.splitOn "/").getLast?).getD p
  let cs := base.data
  let after := cs.reverse.takeWhile (fun c => c ≠ '.')
  if after.length = cs.length then ""
  else if after.length + 1 = cs.length then ""
  else String.mk ('.' :: after.reverse)

/-- The supported-asset allowlist of `fileType.ts`: image extensions, the
video extension set, and `.svg`. -/
def supportedAssetExtensions : List String :=
  [".png", ".jpg", ".jpeg", ".webp", ".gif", ".bmp",
   ".mp4", ".mov", ".webm", ".mkv", ".avi", ".m4v", ".svg"]

/-- `isSupportedAssetPath`: the lowercased extension is in the allowlist. -/
def isSupportedAssetPath (inputPath : String) : Bool :=
  supportedAssetExtensions.contains (extname inputPath).toLower

/-- Result kind of a successful `fs.stat`. -/
inductive FSKind where
  | file
  | dir
  | other
deriving DecidableEq, Repr

/-- Abstract snapshot of the filesystem seen by `expandInputPaths`: a finite
set of paths on which `stat` can succeed, `stat` and `readdir` outcomes
(`none` = the call fails), and the `path.resolve` / `path.join` functions. -/
structure FileSys where
  univ : Finset String
  stat : String → Option FSKind
  entries : String → Option (List String)
  resolve : String → String
  join : String → String → String
  stat_mem : ∀ p k, stat p = some k → p ∈ univ

/-- `entries.sort((a, b) => a.localeCompare(b))`. -/
def sortNames (l : List String) : List String := l.mergeSort (fun a b => a ≤ b)

lemma card_sdiff_insert_le (univ seen : Finset String) (r : String) :
    (univ \ insert r seen).card ≤ (univ \ seen).card :=
  Finset.card_le_card (Finset.sdiff_subset_sdiff (le_refl _) (Finset.subset_insert r seen))

lemma card_sdiff_insert_lt (univ seen : Finset String) (r : String) (hr : r ∈ univ)
    (hs : r ∉ seen) : (univ \ insert r seen).card < (univ \ seen).card := by
  refine Finset.card_lt_card ?_
  rw [Finset.ssubset_iff_of_subset (Finset.sdiff_subset_sdiff (le_refl _)
    (Finset.subset_insert r seen))]
  exact ⟨r, Finset.mem_sdiff.mpr ⟨hr, hs⟩, fun hmem =>
    (Finset.mem_sdiff.mp hmem).2 (Finset.mem_insert_self r seen)⟩

lemma lex_of_lt {a a' b b' : ℕ} (h1 : a' < a) :
    Prod.Lex (· < ·) (· < ·) (a', b') (a, b) :=
  Prod.Lex.left _ _ h1

lemma lex_of_le_of_lt {a a' b b' : ℕ} (h1 : a' ≤ a) (h2 : b' < b) :
    Prod.Lex (· < ·) (· < ·) (a', b') (a, b) := by
  rcases lt_or_eq_of_le h1 with h | h
  · exact Prod.Lex.left _ _ h
  · subst h
    exact Prod.Lex.right _ h2

/-- The DFS of `expandInputPaths` with the recursion turned into an explicit
worklist (directory entries are pushed, joined and in sorted order, onto the
front of the stack, giving the same visit order as the source's recursive
`walk`): resolve the head, skip it if already seen, mark it seen, skip it on
stat failure, recurse into readable directories, and collect supported files. -/
def walkAll (fs : FileSys) : List String → Finset String → List String → List String
  | [], _, files => files
  | p :: stack, seen, files =>
    let r := fs.resolve p
    if hseen : r ∈ seen then walkAll fs stack seen files
    else
      match hstat : fs.stat r with
      | none => walkAll fs stack (insert r seen) files
      | some FSKind.dir =>
        match fs.entries r with
        | none => walkAll fs stack (insert r seen) files
        | some es =>
          walkAll fs ((sortNames es).map (fs.join r) ++ stack) (insert r seen) files
      | some FSKind.file =>
        if isSupportedAssetPath r then walkAll fs stack (insert r seen) (files ++ [r])
        else walkAll fs stack (insert r seen) files
      | some FSKind.other => walkAll fs stack (insert r seen) files
  termination_by stack seen _ => ((fs.univ \ seen).card, stack.length)
  decreasing_by
    all_goals simp_wf
    all_goals first
      | exact lex_of_lt (card_sdiff_insert_lt _ _ _ (fs.stat_mem _ _ hstat) hseen)
      | exact lex_of_le_of_lt (card_sdiff_insert_le _ _ _) (by simp)
      | exact lex_of_le_of_lt (le_refl _) (by simp)

/-- `expandInputPaths`: walk every input path with a single shared seen set
and output list. -/
def expandInputPaths (fs : FileSys) (inputPaths : List String) : List String :=
  walkAll fs inputPaths ∅ []

/-- What is true of every collected output path. -/
def goodOutput (fs : FileSys) (f : String) : Prop :=
  (∃ q, f = fs.resolve q) ∧ fs.stat f = some FSKind.file ∧ isSupportedAssetPath f = true








lemma walkAll_inv (fs : FileSys) (stack : List String) (seen : Finset String)
    (files : List String) :
    files.Nodup → (∀ f ∈ files, f ∈ seen) → (∀ f ∈ files, goodOutput fs f) →
    (walkAll fs stack seen files).Nodup ∧
      ∀ f ∈ walkAll fs stack seen files, goodOutput fs f := by
  induction stack, seen, files using walkAll.induct fs with
  | case1 seen files =>
    intro h1 _ h3
    rw [walkAll]
    exact ⟨h1, h3⟩
  | case2 p stack seen files r hseen ih =>
    intro h1 h2 h3
    have hseenR : fs.resolve p ∈ seen := hseen
    rw [walkAll]
    simp only [dif_pos hseenR]
    exact ih h1 h2 h3
  | case3 p stack seen files r hseen hstat ih =>
    intro h1 h2 h3
    have hseenR : fs.resolve p ∉ seen := hseen
    have hstatR : fs.stat (fs.resolve p) = none := hstat
    have hres := ih h1 (fun f hf => Finset.mem_insert_of_mem (h2 f hf)) h3
    rw [walkAll]
    simp only [dif_neg hseenR]
    split
    · exact hres
    all_goals (rename_i heq; rw [hstatR] at heq; cases heq)
  | case4 p stack seen files r hseen hstat hent ih =>
    intro h1 h2 h3
    have hseenR : fs.resolve p ∉ seen := hseen
    have hstatR : fs.stat (fs.resolve p) = some FSKind.dir := hstat
    have hentR : fs.entries (fs.resolve p) = none := hent
    have hres := ih h1 (fun f hf => Finset.mem_insert_of_mem (h2 f hf)) h3
    rw [walkAll]
    simp only [dif_neg hseenR]
    split
    · rename_i heq; rw [hstatR] at heq; cases heq
    · split
      · exact hres
      · rename_i heq; rw [hentR] at heq; cases heq
    · rename_i heq; rw [hstatR] at heq; cases heq
    · rename_i heq; rw [hstatR] at heq; cases heq
  | case5 p stack seen files r hseen hstat es hent ih =>
    intro h1 h2 h3
    have hseenR : fs.resolve p ∉ seen := hseen
    have hstatR : fs.stat (fs.resolve p) = some FSKind.dir := hstat
    have hentR : fs.entries (fs.resolve p) = some es := hent
    have hres := ih h1 (fun f hf => Finset.mem_insert_of_mem (h2 f hf)) h3
    rw [walkAll]
    simp only [dif_neg hseenR]
    split
    · rename_i heq; rw [hstatR] at heq; cases heq
    · split
      · rename_i heq; rw [hentR] at heq; cases heq
      · rename_i es2 heq
        rw [hentR] at heq
        cases heq
        exact hres
    · rename_i heq; rw [hstatR] at heq; cases heq
    · rename_i heq; rw [hstatR] at heq; cases heq
  | case6 p stack seen files r hseen hstat hsupp ih =>
    intro h1 h2 h3
    have hseenR : fs.resolve p ∉ seen := hseen
    have hstatR : fs.stat (fs.resolve p) = some FSKind.file := hstat
    have hsuppR : isSupportedAssetPath (fs.resolve p) = true := hsupp
    have hrf : fs.resolve p ∉ files := fun hm => hseenR (h2 _ hm)
    have hA : (files ++ [fs.resolve p]).Nodup := by
      refine List.Nodup.append h1 (List.nodup_singleton _) ?_
      intro a ha hb
      rw [List.mem_singleton] at hb
      subst hb
      exact hrf ha
    have hB : ∀ f ∈ files ++ [fs.resolve p], f ∈ insert (fs.resolve p) seen := by
      intro f hf
      rcases List.mem_append.mp hf with h | h
      · exact Finset.mem_insert_of_mem (h2 f h)
      · rw [List.mem_singleton] at h
        subst h
        exact Finset.mem_insert_self _ _
    have hC : ∀ f ∈ files ++ [fs.resolve p], goodOutput fs f := by
      intro f hf
      rcases List.mem_append.mp hf with h | h
      · exact h3 f h
      · rw [List.mem_singleton] at h
        subst h
        exact ⟨⟨p, rfl⟩, hstatR, hsuppR⟩
    have hres := ih hA hB hC
    rw [walkAll]
    simp only [dif_neg hseenR]
    split
    · rename_i heq; rw [hstatR] at heq; cases heq
    · rename_i heq; rw [hstatR] at heq; cases heq
    · simp only [if_pos hsuppR]
      exact hres
    · rename_i heq; rw [hstatR] at heq; cases heq
  | case7 p stack seen files r hseen hstat hsupp ih =>
    intro h1 h2 h3
    have hseenR : fs.resolve p ∉ seen := hseen
    have hstatR : fs.stat (fs.resolve p) = some FSKind.file := hstat
    have hsuppR : ¬ isSupportedAssetPath (fs.resolve p) = true := hsupp
    have hres := ih h1 (fun f hf => Finset.mem_insert_of_mem (h2 f hf)) h3
    rw [walkAll]
    simp only [dif_neg hseenR]
    split
    · rename_i heq; rw [hstatR] at heq; cases heq
    · rename_i heq; rw [hstatR] at heq; cases heq
    · simp only [if_neg hsuppR]
      exact hres
    · rename_i heq; rw [hstatR] at heq; cases heq
  | case8 p stack seen files r hseen hstat ih =>
    intro h1 h2 h3
    have hseenR : fs.resolve p ∉ seen := hseen
    have hstatR : fs.stat (fs.resolve p) = some FSKind.other := hstat
    have hres := ih h1 (fun f hf => Finset.mem_insert_of_mem (h2 f hf)) h3
    rw [walkAll]
    simp only [dif_neg hseenR]
    split
    · rename_i heq; rw [hstatR] at heq; cases heq
    · rename_i heq; rw [hstatR] at heq; cases heq
    · rename_i heq; rw [hstatR] at heq; cases heq
    · exact hres

/-- Claim C10: `expandInputPaths` (total by construction — stat and readdir
failures are skipped, never propagated) returns a duplicate-free list in
which every element is a resolved path that statted as a regular file with a
supported asset extension. -/
theorem expandInputPaths_safe :
    ∀ (fs : FileSys) (inputPaths : List String),
      (expandInputPaths fs inputPaths).Nodup ∧
      ∀ f ∈ expandInputPaths fs inputPaths,
        (∃ q, f = fs.resolve q) ∧ fs.stat f = some FSKind.file ∧
          isSupportedAssetPath f = true := by
  intro fs inputPaths
  have h := walkAll_inv fs inputPaths ∅ [] List.nodup_nil (by simp) (by simp)
  exact ⟨h.1, h.2⟩

/-- A one-file filesystem used to witness `expandInputPaths_safe`. -/
def exampleFS : FileSys where
  univ := {"/a.png"}
  stat := fun p => if p = "/a.png" then some FSKind.file else none
  entries := fun _ => none
  resolve := fun p => p
  join := fun a b => a ++ "/" ++ b
  stat_mem := by
    intro p k h
    simp only at h
    split at h
    · simp_all
    · exact absurd h (by simp)

/-- Witness for `expandInputPaths_safe` on the concrete one-file
filesystem. -/
theorem expandInputPaths_safe_witness :
    (expandInputPaths exampleFS ["/a.png"]).Nodup ∧
      ∀ f ∈ expandInputPaths exampleFS ["/a.png"],
        (∃ q, f = exampleFS.resolve q) ∧ exampleFS.stat f = some FSKind.file ∧
          isSupportedAssetPath f = true :=
  expandInputPaths_safe exampleFS ["/a.png"]
